import Mathlib

/-!
Verification of the target-size-constrained encoding parameter resolver and
duration-probe logic of MultimediaCompressor (src/main.py).

Conventions of the shallow embedding:
* Python floats that hold media durations and bit budgets are modelled as `ℚ`.
* Byte buffers produced by the JPEG encoder are modelled as `List ℕ`; the
  encoder itself (`img.save(buffer, "JPEG", quality=q)`) is an abstract
  function `enc : ℕ → List ℕ` from quality to the produced bytes, and
  `buffer.tell()` is the length of those bytes.
* The Python builtin `int(x)` truncates toward zero; `pythonInt` embeds it.
* External-world effects (the ffprobe subprocess, the cv2 and mutagen
  libraries) are passed in as explicit environment values describing what the
  call would observe.
-/

/-- Embedding of the Python builtin `int : float -> int`, which truncates
toward zero: ceiling for negative arguments, floor otherwise. -/
def pythonInt (q : ℚ) : ℤ :=
  if q < 0 then ⌈q⌉ else ⌊q⌋

/-- Outcome of a target-size bitrate computation: either the user-visible
rejection message shown by `show_error_dialog`, or a bitrate in kbps. -/
inductive BitrateOutcome where
  | rejected (msg : String)
  | ok (kbps : ℤ)
deriving DecidableEq, Repr

/-- Embedding of the target-size branch of `VideoCompressorTab.compressVideo`
(src/main.py lines 531-539), stated over a byte count as in the spec contract
`resolve_video_bitrate` (the tab passes `targetSizeSpin.value()*1024*1024`
bytes):

    total_bits = target_bytes * 8
    audio_bitrate = 128000
    audio_bits = audio_bitrate * dur
    video_bits = total_bits - audio_bits
    if video_bits <= 0: error "Target size too small for the audio track."
    computed_bitrate = int((video_bits / dur) / 1000)
-/
def resolve_video_bitrate (target_bytes : ℕ) (dur : ℚ) : BitrateOutcome :=
  let total_bits : ℚ := (target_bytes : ℚ) * 8
  let audio_bitrate : ℚ := 128000
  let audio_bits : ℚ := audio_bitrate * dur
  let video_bits : ℚ := total_bits - audio_bits
  if video_bits ≤ 0 then
    .rejected "Target size too small for the audio track."
  else
    .ok (pythonInt ((video_bits / dur) / 1000))

/-- The video tab computes the byte budget from a whole-megabyte spinner. -/
def compressVideo_target_bitrate (targetSizeMB : ℕ) (dur : ℚ) : BitrateOutcome :=
  resolve_video_bitrate (targetSizeMB * 1024 * 1024) dur

/-- Embedding of the target-size branch of `AudioCompressorTab.compressAudio`
(src/main.py lines 735-737), over a byte count as in the spec contract
`resolve_audio_bitrate`:

    total_bits = target_bytes * 8
    computed_bitrate = int((total_bits / dur) / 1000)
-/
def resolve_audio_bitrate (target_bytes : ℕ) (dur : ℚ) : ℤ :=
  let total_bits : ℚ := (target_bytes : ℚ) * 8
  pythonInt ((total_bits / dur) / 1000)

/-- The audio tab computes the byte budget from a whole-megabyte spinner. -/
def compressAudio_target_bitrate (targetSizeMB : ℕ) (dur : ℚ) : ℤ :=
  resolve_audio_bitrate (targetSizeMB * 1024 * 1024) dur

/-- What `get_duration` observes of the cv2 fallback in its except branch:
whether the cv2 module was importable, whether `cv2.VideoCapture(filepath)`
opened (with any exception folded into `opened := false`), and the values of
`CAP_PROP_FPS` and `CAP_PROP_FRAME_COUNT`. -/
structure Cv2Env where
  available : Bool
  opened : Bool
  fps : ℚ
  frames : ℚ
deriving DecidableEq, Repr

/-- The cv2 branch of `get_duration` (src/main.py lines 106-115): when cv2 is
present, the capture opens, and both fps and frame count are positive, it
returns `frames / fps`; every other path falls through to `None`. -/
def cv2_fallback (e : Cv2Env) : Option ℚ :=
  if e.available = true ∧ e.opened = true ∧ 0 < e.fps ∧ 0 < e.frames then
    some (e.frames / e.fps)
  else
    none

/-- Embedding of `get_duration` (src/main.py lines 86-116).  `primary` is the
result of parsing the ffprobe standard output with `float`: `some v` when the
subprocess ran and its stripped stdout parsed as the float `v`, `none` when
the subprocess raised or `float` raised.  A parsed value `v ≤ 0` raises
`ValueError`, so it also lands in the except branch. -/
def get_duration (primary : Option ℚ) (e : Cv2Env) : Option ℚ :=
  match primary with
  | some v => if v ≤ 0 then cv2_fallback e else some v
  | none => cv2_fallback e

/-- What `get_audio_duration` observes of the mutagen fallback: whether the
`MutagenFile` import succeeded, whether `MutagenFile(filepath)` returned a
truthy object without raising, whether `audio.info` has a `length` attribute,
and that attribute value. -/
structure MutagenEnv where
  available : Bool
  fileTruthy : Bool
  hasLength : Bool
  length : ℚ
deriving DecidableEq, Repr

/-- The mutagen branch of `get_audio_duration` (src/main.py lines 138-144):
when mutagen is present, the file object is truthy, and `info` has a
`length` attribute, that length is returned with no positivity check. -/
def mutagen_fallback (m : MutagenEnv) : Option ℚ :=
  if m.available = true ∧ m.fileTruthy = true ∧ m.hasLength = true then
    some m.length
  else
    none

/-- Embedding of `get_audio_duration` (src/main.py lines 118-145), with
`primary` as in `get_duration`. -/
def get_audio_duration (primary : Option ℚ) (m : MutagenEnv) : Option ℚ :=
  match primary with
  | some v => if v ≤ 0 then mutagen_fallback m else some v
  | none => mutagen_fallback m

/-- The absolute distance `abs(size - target_size_bytes)` between the byte
length of the encode at quality `q` and the requested target. -/
def qualityDiff (enc : ℕ → List ℕ) (target : ℕ) (q : ℕ) : ℕ :=
  (((enc q).length : ℤ) - (target : ℤ)).natAbs

/-- One best-candidate update of `find_quality_for_target_size`
(src/main.py lines 155-162): encode at quality `q`, measure, and replace the
incumbent exactly when the new distance is strictly smaller.  `none` stands
for the initial state `best_diff = inf`, `best_quality = None`,
`best_buffer = None`; a recorded candidate is `(best_diff, best_quality,
best_buffer)`. -/
def updateBest (enc : ℕ → List ℕ) (target : ℕ)
    (best : Option (ℕ × ℕ × List ℕ)) (q : ℕ) : Option (ℕ × ℕ × List ℕ) :=
  let buffer := enc q
  let diff := ((buffer.length : ℤ) - (target : ℤ)).natAbs
  match best with
  | none => some (diff, q, buffer)
  | some (bd, bq, bb) => if diff < bd then some (diff, q, buffer) else some (bd, bq, bb)

/-- The `while low <= high` loop of `find_quality_for_target_size`
(src/main.py lines 153-166).  `low` and `high` are the Python integers of the
loop (which can leave ℕ, e.g. `high = mid - 1` at `mid = 0`), `mid` is the
floor division `(low + high) // 2`, and the branch `size > target` narrows to
`[low, mid-1]`, otherwise to `[mid+1, high]`.  `fuel` is a structural bound
on the number of iterations; the top-level entry point supplies the interval
length, which the loop never exhausts since each step shrinks the interval. -/
def searchAux (enc : ℕ → List ℕ) (target : ℕ) :
    ℕ → ℤ → ℤ → Option (ℕ × ℕ × List ℕ) → Option (ℕ × ℕ × List ℕ)
  | 0, _, _, best => best
  | fuel + 1, low, high, best =>
    if low ≤ high then
      let mid := (low + high).fdiv 2
      let size := (enc mid.toNat).length
      let best' := updateBest enc target best mid.toNat
      if (target : ℤ) < (size : ℤ) then
        searchAux enc target fuel low (mid - 1) best'
      else
        searchAux enc target fuel (mid + 1) high best'
    else best

/-- The qualities at which the search actually encodes, in visit order: one
encode per loop iteration, at `mid`. -/
def visitedAux (enc : ℕ → List ℕ) (target : ℕ) : ℕ → ℤ → ℤ → List ℕ
  | 0, _, _ => []
  | fuel + 1, low, high =>
    if low ≤ high then
      let mid := (low + high).fdiv 2
      if (target : ℤ) < ((enc mid.toNat).length : ℤ) then
        mid.toNat :: visitedAux enc target fuel low (mid - 1)
      else
        mid.toNat :: visitedAux enc target fuel (mid + 1) high
    else []

/-- Embedding of `find_quality_for_target_size` (src/main.py lines 147-167);
the source defaults are `min_quality = 10`, `max_quality = 95`.  Returns the
pair `(best_quality, best_buffer)`, both `None` when the loop never ran. -/
def find_quality_for_target_size (enc : ℕ → List ℕ) (target_size_bytes : ℕ)
    (min_quality max_quality : ℕ) : Option ℕ × Option (List ℕ) :=
  match searchAux enc target_size_bytes (max_quality + 1 - min_quality)
      (min_quality : ℤ) (max_quality : ℤ) none with
  | none => (none, none)
  | some (_, q, b) => (some q, some b)

/-- The visit trace of a top-level `find_quality_for_target_size` run. -/
def visitedQualities (enc : ℕ → List ℕ) (target : ℕ)
    (min_quality max_quality : ℕ) : List ℕ :=
  visitedAux enc target (max_quality + 1 - min_quality)
    (min_quality : ℤ) (max_quality : ℤ)

/-! ### Helper lemmas about the quality search -/

theorem pythonInt_eq_floor (q : ℚ) (h : 0 ≤ q) : pythonInt q = ⌊q⌋ := by
  simp [pythonInt, not_lt.mpr h]

theorem updateBest_none (enc : ℕ → List ℕ) (target q : ℕ) :
    updateBest enc target none q = some (qualityDiff enc target q, q, enc q) := rfl

theorem updateBest_some (enc : ℕ → List ℕ) (target q d0 q0 : ℕ) (b0 : List ℕ) :
    updateBest enc target (some (d0, q0, b0)) q =
      if qualityDiff enc target q < d0 then
        some (qualityDiff enc target q, q, enc q)
      else some (d0, q0, b0) := rfl

theorem searchAux_eq_foldl (enc : ℕ → List ℕ) (target : ℕ) :
    ∀ (fuel : ℕ) (low high : ℤ) (best : Option (ℕ × ℕ × List ℕ)),
      searchAux enc target fuel low high best =
        List.foldl (updateBest enc target) best
          (visitedAux enc target fuel low high) := by
  intro fuel
  induction fuel with
  | zero => intro low high best; rfl
  | succ n ih =>
      intro low high best
      by_cases h : low ≤ high
      · by_cases hs : (target : ℤ) < ((enc ((low + high).fdiv 2).toNat).length : ℤ)
        · simp [searchAux, visitedAux, h, hs, ih]
        · simp [searchAux, visitedAux, h, hs, ih]
      · simp [searchAux, visitedAux, h]

theorem updateBest_isSome (enc : ℕ → List ℕ) (target : ℕ)
    (best : Option (ℕ × ℕ × List ℕ)) (q : ℕ) :
    ∃ t, updateBest enc target best q = some t := by
  cases best with
  | none => exact ⟨_, rfl⟩
  | some s =>
      obtain ⟨bd, bq, bb⟩ := s
      rw [updateBest_some]
      split <;> exact ⟨_, rfl⟩

theorem foldl_updateBest_some (enc : ℕ → List ℕ) (target : ℕ) :
    ∀ (V : List ℕ) (s : ℕ × ℕ × List ℕ),
      ∃ t, List.foldl (updateBest enc target) (some s) V = some t := by
  intro V
  induction V with
  | nil => intro s; exact ⟨s, rfl⟩
  | cons v V ih =>
      intro s
      obtain ⟨t, ht⟩ := updateBest_isSome enc target (some s) v
      rw [List.foldl_cons, ht]
      exact ih t

theorem foldl_updateBest_spec (enc : ℕ → List ℕ) (target : ℕ) :
    ∀ (V : List ℕ) (d0 q0 : ℕ) (b0 : List ℕ) (d q : ℕ) (b : List ℕ),
      List.foldl (updateBest enc target) (some (d0, q0, b0)) V = some (d, q, b) →
      (d = d0 ∧ q = q0 ∧ b = b0 ∧ ∀ x ∈ V, d0 ≤ qualityDiff enc target x) ∨
      (∃ pre post, V = pre ++ q :: post ∧ d = qualityDiff enc target q ∧
        b = enc q ∧ d < d0 ∧
        (∀ x ∈ pre, d < qualityDiff enc target x) ∧
        (∀ x ∈ post, d ≤ qualityDiff enc target x)) := by
  intro V
  induction V with
  | nil =>
      intro d0 q0 b0 d q b h
      simp only [List.foldl_nil, Option.some.injEq, Prod.mk.injEq] at h
      left
      exact ⟨h.1.symm, h.2.1.symm, h.2.2.symm, by simp⟩
  | cons v V ih =>
      intro d0 q0 b0 d q b h
      rw [List.foldl_cons, updateBest_some] at h
      by_cases hv : qualityDiff enc target v < d0
      · rw [if_pos hv] at h
        rcases ih _ _ _ _ _ _ h with ⟨hd, hq, hb, hall⟩ | ⟨pre, post, hV, hd, hb, hlt, hpre, hpost⟩
        · right
          refine ⟨[], V, by simp [hq], ?_, ?_, ?_, by simp, ?_⟩
          · rw [hd, hq]
          · rw [hb, hq]
          · rw [hd]; exact hv
          · intro x hx; rw [hd]; exact hall x hx
        · right
          refine ⟨v :: pre, post, by simp [hV], hd, hb, lt_trans hlt hv, ?_, hpost⟩
          intro x hx
          rcases List.mem_cons.mp hx with hx | hx
          · rw [hx]; exact hlt
          · exact hpre x hx
      · rw [if_neg hv] at h
        rcases ih _ _ _ _ _ _ h with ⟨hd, hq, hb, hall⟩ | ⟨pre, post, hV, hd, hb, hlt, hpre, hpost⟩
        · left
          refine ⟨hd, hq, hb, ?_⟩
          intro x hx
          rcases List.mem_cons.mp hx with hx | hx
          · rw [hx]; exact not_lt.mp hv
          · exact hall x hx
        · right
          refine ⟨v :: pre, post, by simp [hV], hd, hb, hlt, ?_, hpost⟩
          intro x hx
          rcases List.mem_cons.mp hx with hx | hx
          · rw [hx]; exact lt_of_lt_of_le hlt (not_lt.mp hv)
          · exact hpre x hx

theorem foldl_updateBest_none_spec (enc : ℕ → List ℕ) (target : ℕ)
    (V : List ℕ) (d q : ℕ) (b : List ℕ)
    (h : List.foldl (updateBest enc target) none V = some (d, q, b)) :
    ∃ pre post, V = pre ++ q :: post ∧ d = qualityDiff enc target q ∧
      b = enc q ∧
      (∀ x ∈ pre, d < qualityDiff enc target x) ∧
      (∀ x ∈ post, d ≤ qualityDiff enc target x) := by
  cases V with
  | nil => simp at h
  | cons v V =>
      rw [List.foldl_cons, updateBest_none] at h
      rcases foldl_updateBest_spec enc target V _ _ _ _ _ _ h with
        ⟨hd, hq, hb, hall⟩ | ⟨pre, post, hV, hd, hb, hlt, hpre, hpost⟩
      · refine ⟨[], V, by simp [hq], ?_, ?_, by simp, ?_⟩
        · rw [hd, hq]
        · rw [hb, hq]
        · intro x hx; rw [hd]; exact hall x hx
      · refine ⟨v :: pre, post, by simp [hV], hd, hb, ?_, hpost⟩
        intro x hx
        rcases List.mem_cons.mp hx with hx | hx
        · rw [hx]; exact hlt
        · exact hpre x hx

theorem foldl_updateBest_eq_none_iff (enc : ℕ → List ℕ) (target : ℕ) (V : List ℕ) :
    List.foldl (updateBest enc target) none V = none ↔ V = [] := by
  cases V with
  | nil => simp
  | cons v V =>
      rw [List.foldl_cons, updateBest_none]
      obtain ⟨t, ht⟩ :=
        foldl_updateBest_some enc target V (qualityDiff enc target v, v, enc v)
      simp [ht]

theorem visitedAux_eq_nil (enc : ℕ → List ℕ) (target : ℕ) (fuel : ℕ)
    {low high : ℤ} (h : high < low) :
    visitedAux enc target fuel low high = [] := by
  cases fuel with
  | zero => rfl
  | succ n => simp [visitedAux, not_le.mpr h]

theorem visitedAux_mem_bounds (enc : ℕ → List ℕ) (target : ℕ) :
    ∀ (fuel : ℕ) (low high : ℤ), 0 ≤ low →
      ∀ x ∈ visitedAux enc target fuel low high, low ≤ (x : ℤ) ∧ (x : ℤ) ≤ high := by
  intro fuel
  induction fuel with
  | zero => intro low high _ x hx; simp [visitedAux] at hx
  | succ n ih =>
      intro low high hlow x hx
      by_cases h : low ≤ high
      · have hmid : low ≤ (low + high).fdiv 2 ∧ (low + high).fdiv 2 ≤ high := by
          rw [Int.fdiv_eq_ediv _ (by norm_num)]
          omega
        have hnn : 0 ≤ (low + high).fdiv 2 := le_trans hlow hmid.1
        have hcast : (((low + high).fdiv 2).toNat : ℤ) = (low + high).fdiv 2 :=
          Int.toNat_of_nonneg hnn
        by_cases hs : (target : ℤ) < ((enc ((low + high).fdiv 2).toNat).length : ℤ)
        · simp only [visitedAux, if_pos h, if_pos hs, List.mem_cons] at hx
          rcases hx with hx | hx
          · subst hx; omega
          · have := ih low ((low + high).fdiv 2 - 1) hlow x hx
            omega
        · simp only [visitedAux, if_pos h, if_neg hs, List.mem_cons] at hx
          rcases hx with hx | hx
          · subst hx; omega
          · have := ih ((low + high).fdiv 2 + 1) high (by omega) x hx
            omega
      · rw [visitedAux_eq_nil enc target _ (not_le.mp h)] at hx
        simp at hx

theorem visitedAux_length_le (enc : ℕ → List ℕ) (target : ℕ) :
    ∀ (fuel : ℕ) (low high : ℤ), (high + 1 - low).toNat ≤ fuel →
      (visitedAux enc target fuel low high).length ≤
        Nat.log 2 ((high + 1 - low).toNat) + 1 := by
  intro fuel
  induction fuel with
  | zero => intro low high _; simp [visitedAux]
  | succ n ih =>
      intro low high hf
      by_cases h : low ≤ high
      · have hed : (low + high).fdiv 2 = (low + high) / 2 :=
          Int.fdiv_eq_ediv _ (by norm_num)
        have hn1 : 1 ≤ (high + 1 - low).toNat := by omega
        by_cases hs : (target : ℤ) < ((enc ((low + high).fdiv 2).toNat).length : ℤ)
        · simp only [visitedAux, if_pos h, if_pos hs, List.length_cons]
          have hhalf : ((low + high).fdiv 2 - 1 + 1 - low).toNat ≤
              (high + 1 - low).toNat / 2 := by
            rw [hed]; omega
          by_cases hz : ((low + high).fdiv 2 - 1 + 1 - low).toNat = 0
          · rw [visitedAux_eq_nil enc target n (by omega)]
            simp [hn1]
          · have h2 : 2 ≤ (high + 1 - low).toNat := by omega
            have hlog1 : 0 < Nat.log 2 ((high + 1 - low).toNat) :=
              Nat.log_pos (by norm_num) h2
            have hrec := ih low ((low + high).fdiv 2 - 1) (by omega)
            have hmono : Nat.log 2 (((low + high).fdiv 2 - 1 + 1 - low).toNat) ≤
                Nat.log 2 ((high + 1 - low).toNat / 2) := Nat.log_mono_right hhalf
            have hdb : Nat.log 2 ((high + 1 - low).toNat / 2) =
                Nat.log 2 ((high + 1 - low).toNat) - 1 := Nat.log_div_base _ _
            omega
        · simp only [visitedAux, if_pos h, if_neg hs, List.length_cons]
          have hhalf : (high + 1 - ((low + high).fdiv 2 + 1)).toNat ≤
              (high + 1 - low).toNat / 2 := by
            rw [hed]; omega
          by_cases hz : (high + 1 - ((low + high).fdiv 2 + 1)).toNat = 0
          · rw [visitedAux_eq_nil enc target n (by omega)]
            simp [hn1]
          · have h2 : 2 ≤ (high + 1 - low).toNat := by omega
            have hlog1 : 0 < Nat.log 2 ((high + 1 - low).toNat) :=
              Nat.log_pos (by norm_num) h2
            have hrec := ih ((low + high).fdiv 2 + 1) high (by omega)
            have hmono : Nat.log 2 ((high + 1 - ((low + high).fdiv 2 + 1)).toNat) ≤
                Nat.log 2 ((high + 1 - low).toNat / 2) := Nat.log_mono_right hhalf
            have hdb : Nat.log 2 ((high + 1 - low).toNat / 2) =
                Nat.log 2 ((high + 1 - low).toNat) - 1 := Nat.log_div_base _ _
            omega
      · rw [visitedAux_eq_nil enc target _ (not_le.mp h)]
        simp

theorem visitedAux_low_mem (enc : ℕ → List ℕ) (target : ℕ) :
    ∀ (fuel : ℕ) (low high : ℤ), 0 ≤ low → low ≤ high →
      (high + 1 - low).toNat ≤ fuel →
      (∀ x : ℕ, low ≤ (x : ℤ) → (x : ℤ) ≤ high →
        (target : ℤ) < ((enc x).length : ℤ)) →
      low.toNat ∈ visitedAux enc target fuel low high := by
  intro fuel
  induction fuel with
  | zero => intro low high _ hlh hf _; omega
  | succ n ih =>
      intro low high hlow hlh hf hbig
      have hed : (low + high).fdiv 2 = (low + high) / 2 :=
        Int.fdiv_eq_ediv _ (by norm_num)
      have hmid : low ≤ (low + high).fdiv 2 ∧ (low + high).fdiv 2 ≤ high := by
        rw [hed]; omega
      have hnn : 0 ≤ (low + high).fdiv 2 := le_trans hlow hmid.1
      have hcast : (((low + high).fdiv 2).toNat : ℤ) = (low + high).fdiv 2 :=
        Int.toNat_of_nonneg hnn
      have hs : (target : ℤ) < ((enc ((low + high).fdiv 2).toNat).length : ℤ) :=
        hbig ((low + high).fdiv 2).toNat (by omega) (by omega)
      simp only [visitedAux, if_pos hlh, if_pos hs, List.mem_cons]
      by_cases he : low ≤ (low + high).fdiv 2 - 1
      · right
        refine ih low ((low + high).fdiv 2 - 1) hlow he ?_ ?_
        · rw [hed] at *; omega
        · intro x h1 h2
          exact hbig x h1 (by omega)
      · left
        have : (low + high).fdiv 2 = low := by omega
        rw [this]

theorem find_quality_spec (enc : ℕ → List ℕ) (target minq maxq q : ℕ) (b : List ℕ)
    (h : find_quality_for_target_size enc target minq maxq = (some q, some b)) :
    ∃ pre post, visitedQualities enc target minq maxq = pre ++ q :: post ∧
      b = enc q ∧
      (∀ x ∈ pre, qualityDiff enc target q < qualityDiff enc target x) ∧
      (∀ x ∈ post, qualityDiff enc target q ≤ qualityDiff enc target x) := by
  unfold find_quality_for_target_size at h
  rw [searchAux_eq_foldl] at h
  rcases hE : List.foldl (updateBest enc target) none
      (visitedAux enc target (maxq + 1 - minq) (minq : ℤ) (maxq : ℤ)) with _ | ⟨d, q', b'⟩
  · rw [hE] at h; simp at h
  · rw [hE] at h
    simp only [Prod.mk.injEq, Option.some.injEq] at h
    obtain ⟨hq, hb⟩ := h
    subst hq; subst hb
    obtain ⟨pre, post, hV, hd, hbuf, hpre, hpost⟩ :=
      foldl_updateBest_none_spec enc target _ d q' b' hE
    refine ⟨pre, post, hV, hbuf, ?_, ?_⟩
    · intro x hx; rw [← hd]; exact hpre x hx
    · intro x hx; rw [← hd]; exact hpost x hx

theorem find_quality_min (enc : ℕ → List ℕ) (target minq maxq q : ℕ) (b : List ℕ)
    (h : find_quality_for_target_size enc target minq maxq = (some q, some b)) :
    ∀ x ∈ visitedQualities enc target minq maxq,
      qualityDiff enc target q ≤ qualityDiff enc target x := by
  obtain ⟨pre, post, hV, _, hpre, hpost⟩ := find_quality_spec enc target minq maxq q b h
  intro x hx
  rw [hV] at hx
  rcases List.mem_append.mp hx with hx | hx
  · exact le_of_lt (hpre x hx)
  · rcases List.mem_cons.mp hx with hx | hx
    · rw [hx]
    · exact hpost x hx

theorem find_quality_mem_visited (enc : ℕ → List ℕ) (target minq maxq q : ℕ)
    (b : List ℕ)
    (h : find_quality_for_target_size enc target minq maxq = (some q, some b)) :
    q ∈ visitedQualities enc target minq maxq := by
  obtain ⟨pre, post, hV, _, _, _⟩ := find_quality_spec enc target minq maxq q b h
  rw [hV]
  simp

theorem find_quality_isSome (enc : ℕ → List ℕ) (target minq maxq : ℕ)
    (h : minq ≤ maxq) :
    ∃ q b, find_quality_for_target_size enc target minq maxq = (some q, some b) := by
  unfold find_quality_for_target_size
  rw [searchAux_eq_foldl]
  rcases hE : List.foldl (updateBest enc target) none
      (visitedAux enc target (maxq + 1 - minq) (minq : ℤ) (maxq : ℤ)) with _ | ⟨d, q, b⟩
  · exfalso
    have hnil := (foldl_updateBest_eq_none_iff enc target _).mp hE
    have hfe : maxq + 1 - minq = (maxq - minq) + 1 := by omega
    rw [hfe] at hnil
    simp only [visitedAux, if_pos (by exact_mod_cast h : (minq : ℤ) ≤ (maxq : ℤ))] at hnil
    split at hnil <;> simp at hnil
  · exact ⟨q, b, rfl⟩

theorem find_quality_eq_none_iff (enc : ℕ → List ℕ) (target minq maxq : ℕ) :
    find_quality_for_target_size enc target minq maxq = (none, none) ↔ maxq < minq := by
  constructor
  · intro h
    by_contra hc
    obtain ⟨q, b, hqb⟩ := find_quality_isSome enc target minq maxq (by omega)
    rw [hqb] at h
    simp at h
  · intro h
    unfold find_quality_for_target_size
    rw [searchAux_eq_foldl,
      visitedAux_eq_nil enc target _ (by exact_mod_cast h : (maxq : ℤ) < (minq : ℤ))]
    rfl

/-! ### Claim theorems -/

/-- C1, counterexample: at `target_bytes = 963750`, `duration = 60` the audio
budget is satisfied (`963750*8 = 7710000 > 7680000 = 128000*60`), yet the
resolver returns the bitrate 0, which is not a positive integer: the claim
that every input above the audio threshold yields a positive bitrate is
false. -/
theorem C1_counterexample :
    128000 * (60 : ℚ) < ((963750 : ℕ) : ℚ) * 8 ∧
    resolve_video_bitrate 963750 60 = BitrateOutcome.ok 0 ∧ ¬ (0 : ℤ) < 0 := by
  refine ⟨by norm_num, ?_, by norm_num⟩
  norm_num [resolve_video_bitrate, pythonInt]

/-- C1 (amended): for every `duration > 0`, when `target_bytes*8` strictly
exceeds `128000*duration` the video resolver returns a non-negative (possibly
zero) integer bitrate in kbps, and when `target_bytes*8 ≤ 128000*duration` it
returns the rejection outcome with the message of the source. -/
theorem C1_video_resolver_amended (tb : ℕ) (dur : ℚ) (hdur : 0 < dur) :
    (128000 * dur < (tb : ℚ) * 8 →
      ∃ k : ℤ, 0 ≤ k ∧ resolve_video_bitrate tb dur = BitrateOutcome.ok k) ∧
    ((tb : ℚ) * 8 ≤ 128000 * dur →
      resolve_video_bitrate tb dur =
        BitrateOutcome.rejected "Target size too small for the audio track.") := by
  have hterm : resolve_video_bitrate tb dur =
      if (tb : ℚ) * 8 - 128000 * dur ≤ 0 then
        BitrateOutcome.rejected "Target size too small for the audio track."
      else
        BitrateOutcome.ok
          (pythonInt ((((tb : ℚ) * 8 - 128000 * dur) / dur) / 1000)) := rfl
  constructor
  · intro hgt
    rw [hterm, if_neg (by linarith)]
    refine ⟨_, ?_, rfl⟩
    have hq : 0 ≤ (((tb : ℚ) * 8 - 128000 * dur) / dur) / 1000 := by
      have h1 : 0 ≤ (tb : ℚ) * 8 - 128000 * dur := by linarith
      positivity
    rw [pythonInt_eq_floor _ hq]
    exact Int.floor_nonneg.mpr hq
  · intro hle
    rw [hterm, if_pos (by linarith)]

/-- C1 witness: at `target_bytes = 1048576`, `duration = 60` the resolver
returns a non-negative bitrate; at `target_bytes = 100000`, `duration = 60`
it rejects. -/
theorem C1_witness :
    (0 : ℚ) < 60 ∧ 128000 * (60 : ℚ) < ((1048576 : ℕ) : ℚ) * 8 ∧
    (∃ k : ℤ, 0 ≤ k ∧ resolve_video_bitrate 1048576 60 = BitrateOutcome.ok k) ∧
    (((100000 : ℕ) : ℚ) * 8 ≤ 128000 * 60) ∧
    resolve_video_bitrate 100000 60 =
      BitrateOutcome.rejected "Target size too small for the audio track." := by
  refine ⟨by norm_num, by norm_num, ?_, by norm_num, ?_⟩
  · exact (C1_video_resolver_amended 1048576 60 (by norm_num)).1 (by norm_num)
  · exact (C1_video_resolver_amended 100000 60 (by norm_num)).2 (by norm_num)

/-- C4: the video target-size resolver follows the exact formula
`floor(((target_bytes*8 - 128000*duration) / duration) / 1000)`; at
`target_bytes = 1*1024*1024`, `duration = 60` it yields 11 kbps (and indeed
`11 = floor((708608/60)/1000)`), while `target_bytes = 100000`,
`duration = 60` is rejected. -/
theorem C4_video_formula_scenarios :
    resolve_video_bitrate (1 * 1024 * 1024) 60 = BitrateOutcome.ok 11 ∧
    (11 : ℤ) = ⌊((708608 : ℚ) / 60) / 1000⌋ ∧
    ((1048576 : ℚ) * 8 - 128000 * 60 = 708608) ∧
    resolve_video_bitrate 100000 60 =
      BitrateOutcome.rejected "Target size too small for the audio track." := by
  refine ⟨?_, by norm_num, by norm_num, ?_⟩
  · norm_num [resolve_video_bitrate, pythonInt]
  · norm_num [resolve_video_bitrate]

/-- C7: the audio target-size resolver is monotonically increasing in the
byte target for a fixed positive duration, monotonically decreasing in the
duration for a fixed target, and under `duration > 0` it always equals the
plain floor formula with no audio-overhead subtraction. -/
theorem C7_audio_resolver_monotone (tb tb' : ℕ) (d d' : ℚ)
    (hd : 0 < d) (hdd : d ≤ d') (htb : tb ≤ tb') :
    resolve_audio_bitrate tb d ≤ resolve_audio_bitrate tb' d ∧
    resolve_audio_bitrate tb d' ≤ resolve_audio_bitrate tb d ∧
    resolve_audio_bitrate tb d = ⌊(((tb : ℚ) * 8) / d) / 1000⌋ := by
  have hd' : 0 < d' := lt_of_lt_of_le hd hdd
  have key : ∀ (n : ℕ) (e : ℚ), 0 < e →
      resolve_audio_bitrate n e = ⌊(((n : ℚ) * 8) / e) / 1000⌋ := by
    intro n e he
    exact pythonInt_eq_floor _ (by positivity)
  refine ⟨?_, ?_, key tb d hd⟩
  · rw [key tb d hd, key tb' d hd]
    apply Int.floor_mono
    gcongr
  · rw [key tb d hd, key tb d' hd']
    apply Int.floor_mono
    gcongr

/-- C7 witness: concrete monotonicity instances at `target_bytes` 1000000 and
2000000 and durations 10 and 20 seconds. -/
theorem C7_witness :
    (0 : ℚ) < 10 ∧ (10 : ℚ) ≤ 20 ∧ (1000000 : ℕ) ≤ 2000000 ∧
    resolve_audio_bitrate 1000000 10 ≤ resolve_audio_bitrate 2000000 10 ∧
    resolve_audio_bitrate 1000000 20 ≤ resolve_audio_bitrate 1000000 10 ∧
    resolve_audio_bitrate 1000000 10 = ⌊(((1000000 : ℕ) : ℚ) * 8 / 10) / 1000⌋ := by
  obtain ⟨h1, h2, h3⟩ := C7_audio_resolver_monotone 1000000 2000000 10 20
    (by norm_num) (by norm_num) (by norm_num)
  exact ⟨by norm_num, by norm_num, by norm_num, h1, h2, h3⟩

theorem cv2_fallback_pos (e : Cv2Env) (v : ℚ) (h : cv2_fallback e = some v) :
    0 < v := by
  unfold cv2_fallback at h
  split at h
  · rename_i hc
    simp only [Option.some.injEq] at h
    rw [← h]
    exact div_pos hc.2.2.2 hc.2.2.1
  · simp at h

theorem mutagen_fallback_eq_length (m : MutagenEnv) (v : ℚ)
    (h : mutagen_fallback m = some v) : v = m.length := by
  unfold mutagen_fallback at h
  split at h
  · simp only [Option.some.injEq] at h
    exact h.symm
  · simp at h

/-- C2, counterexample: with the primary ffprobe measurement failing and
mutagen reporting a metadata length of 0, `get_audio_duration` returns the
zero duration 0 instead of the unknown outcome, so the audio probe does not
restrict its fallback value to strictly positive durations. -/
theorem C2_counterexample :
    get_audio_duration none (MutagenEnv.mk true true true 0) = some 0 ∧
    ¬ (0 : ℚ) < 0 := by
  exact ⟨rfl, by norm_num⟩

/-- C2 (amended): the video probe never returns a non-positive duration (its
cv2 fallback demands positive fps and frame count), and the audio probe can
only return a value that is strictly positive or is the mutagen metadata
length passed through unchecked — the audio fallback does not enforce
positivity. -/
theorem C2_probe_positivity_amended :
    (∀ (p : Option ℚ) (e : Cv2Env) (v : ℚ), get_duration p e = some v → 0 < v) ∧
    (∀ (p : Option ℚ) (m : MutagenEnv) (v : ℚ),
      get_audio_duration p m = some v → 0 < v ∨ v = m.length) := by
  constructor
  · intro p e v h
    cases p with
    | none => exact cv2_fallback_pos e v h
    | some w =>
        simp only [get_duration] at h
        by_cases hw : w ≤ 0
        · rw [if_pos hw] at h
          exact cv2_fallback_pos e v h
        · rw [if_neg hw] at h
          simp only [Option.some.injEq] at h
          rw [← h]
          exact not_le.mp hw
  · intro p m v h
    cases p with
    | none => exact Or.inr (mutagen_fallback_eq_length m v h)
    | some w =>
        simp only [get_audio_duration] at h
        by_cases hw : w ≤ 0
        · rw [if_pos hw] at h
          exact Or.inr (mutagen_fallback_eq_length m v h)
        · rw [if_neg hw] at h
          simp only [Option.some.injEq] at h
          rw [← h]
          exact Or.inl (not_le.mp hw)

/-- C2 witness: a successful video probe yields a positive duration, and an
audio probe that fell through to a mutagen length of 0 lands in the
length-passthrough disjunct. -/
theorem C2_witness :
    get_duration (some 7) (Cv2Env.mk true true 30 900) = some 7 ∧ (0 : ℚ) < 7 ∧
    get_audio_duration none (MutagenEnv.mk true true true 0) = some 0 ∧
    ((0 : ℚ) < 0 ∨ (0 : ℚ) = (MutagenEnv.mk true true true 0).length) := by
  have h1 : get_duration (some 7) (Cv2Env.mk true true 30 900) = some 7 := by
    norm_num [get_duration]
  have h2 : get_audio_duration none (MutagenEnv.mk true true true 0) = some 0 := rfl
  exact ⟨h1, C2_probe_positivity_amended.1 (some 7) _ 7 h1,
    h2, C2_probe_positivity_amended.2 none _ 0 h2⟩

/-- C6: whenever the primary ffprobe output parses to a strictly positive
float, both probes return exactly that value, whatever the cv2 or mutagen
environment holds — the fallback is never consulted. -/
theorem C6_primary_result_wins (e : Cv2Env) (m : MutagenEnv) (v : ℚ)
    (hv : 0 < v) :
    get_duration (some v) e = some v ∧ get_audio_duration (some v) m = some v := by
  constructor
  · simp only [get_duration]
    rw [if_neg (not_le.mpr hv)]
  · simp only [get_audio_duration]
    rw [if_neg (not_le.mpr hv)]

/-- C6 witness: primary value 5 is returned by both probes even though the
fallback environments are fully available and would report other values. -/
theorem C6_witness :
    (0 : ℚ) < 5 ∧
    get_duration (some 5) (Cv2Env.mk true true 25 250) = some 5 ∧
    get_audio_duration (some 5) (MutagenEnv.mk true true true 9999) = some 5 := by
  refine ⟨by norm_num, ?_, ?_⟩
  · exact (C6_primary_result_wins (Cv2Env.mk true true 25 250)
      (MutagenEnv.mk true true true 9999) 5 (by norm_num)).1
  · exact (C6_primary_result_wins (Cv2Env.mk true true 25 250)
      (MutagenEnv.mk true true true 9999) 5 (by norm_num)).2

theorem find_quality_in_range (enc : ℕ → List ℕ) (target minq maxq q : ℕ)
    (b : List ℕ)
    (h : find_quality_for_target_size enc target minq maxq = (some q, some b)) :
    minq ≤ q ∧ q ≤ maxq := by
  have hmem := find_quality_mem_visited enc target minq maxq q b h
  unfold visitedQualities at hmem
  have hb := visitedAux_mem_bounds enc target (maxq + 1 - minq) (minq : ℤ) (maxq : ℤ)
    (by positivity) q hmem
  exact ⟨by exact_mod_cast hb.1, by exact_mod_cast hb.2⟩

theorem visited_low_mem (enc : ℕ → List ℕ) (target minq maxq : ℕ)
    (hle : minq ≤ maxq)
    (hbig : ∀ x : ℕ, minq ≤ x → x ≤ maxq → target < (enc x).length) :
    minq ∈ visitedQualities enc target minq maxq := by
  unfold visitedQualities
  have h := visitedAux_low_mem enc target (maxq + 1 - minq) (minq : ℤ) (maxq : ℤ)
    (by positivity) (by exact_mod_cast hle) (by omega) ?_
  · simpa using h
  · intro x h1 h2
    have hx1 : minq ≤ x := by exact_mod_cast h1
    have hx2 : x ≤ maxq := by exact_mod_cast h2
    exact_mod_cast hbig x hx1 hx2

/-- C3: for a monotone encoder and any `min_quality ≤ max_quality`, the
search returns a quality inside `[min_quality, max_quality]` whose encoded
distance to the target is ≤ the distance of every quality it actually
encoded during its run. -/
theorem C3_search_optimal_over_visited (enc : ℕ → List ℕ) (target minq maxq : ℕ)
    (hmono : Monotone fun q => (enc q).length) (hle : minq ≤ maxq) :
    ∃ q b, find_quality_for_target_size enc target minq maxq = (some q, some b) ∧
      minq ≤ q ∧ q ≤ maxq ∧
      ∀ x ∈ visitedQualities enc target minq maxq,
        qualityDiff enc target q ≤ qualityDiff enc target x := by
  obtain ⟨q, b, hqb⟩ := find_quality_isSome enc target minq maxq hle
  obtain ⟨h1, h2⟩ := find_quality_in_range enc target minq maxq q b hqb
  exact ⟨q, b, hqb, h1, h2, find_quality_min enc target minq maxq q b hqb⟩

/-- The encoder whose output at quality `q` is `q` bytes long: a strictly
monotone stand-in used to instantiate the search theorems. -/
def linearEnc : ℕ → List ℕ := fun q => List.replicate q 0

/-- The constant encoder: every quality yields the same 5-byte output, the
degenerate monotone case in which all visited distances tie. -/
def constEnc5 : ℕ → List ℕ := fun _ => List.replicate 5 0

/-- The encoder whose output at quality `q` is `q + 100` bytes long: strictly
monotone with every size above small targets. -/
def offsetEnc : ℕ → List ℕ := fun q => List.replicate (q + 100) 0

/-- C3 witness: the search on the strictly growing encoder with target 30
over `[10, 95]` returns an in-range quality that is optimal over the visit
trace. -/
theorem C3_witness :
    Monotone (fun q => (linearEnc q).length) ∧ (10 : ℕ) ≤ 95 ∧
    (∃ q b, find_quality_for_target_size linearEnc 30 10 95 = (some q, some b) ∧
      10 ≤ q ∧ q ≤ 95 ∧
      ∀ x ∈ visitedQualities linearEnc 30 10 95,
        qualityDiff linearEnc 30 q ≤ qualityDiff linearEnc 30 x) := by
  have hmono : Monotone (fun q => (linearEnc q).length) := by
    intro a b hab
    simpa [linearEnc] using hab
  exact ⟨hmono, by norm_num,
    C3_search_optimal_over_visited linearEnc 30 10 95 hmono (by norm_num)⟩

/-- C9: the search always terminates, and the number of encode calls it
performs (the length of its visit trace, one encode per iteration) is at
most `ceil(log2(max_quality - min_quality + 1)) + 1` — never a linear scan
of the range. -/
theorem C9_search_encode_count (enc : ℕ → List ℕ) (target minq maxq : ℕ) :
    (visitedQualities enc target minq maxq).length ≤
      Nat.clog 2 (maxq - minq + 1) + 1 := by
  unfold visitedQualities
  have h := visitedAux_length_le enc target (maxq + 1 - minq) (minq : ℤ) (maxq : ℤ)
    (by omega)
  refine le_trans h ?_
  have h1 : Nat.log 2 (((maxq : ℤ) + 1 - (minq : ℤ)).toNat) ≤
      Nat.clog 2 (maxq - minq + 1) :=
    le_trans (Nat.log_mono_right (by omega)) (Nat.log_le_clog 2 _)
  omega

/-- C8: when the search returns a candidate, that candidate is the
first-visited quality achieving the minimal distance: every strictly earlier
visited quality has strictly larger distance (so a later trial whose
distance merely ties the incumbent never overwrites it), and every later
visited quality has distance ≥ the returned one. -/
theorem C8_first_minimal_kept (enc : ℕ → List ℕ) (target minq maxq q : ℕ)
    (b : List ℕ)
    (h : find_quality_for_target_size enc target minq maxq = (some q, some b)) :
    ∃ pre post, visitedQualities enc target minq maxq = pre ++ q :: post ∧
      b = enc q ∧
      (∀ x ∈ pre, qualityDiff enc target q < qualityDiff enc target x) ∧
      (∀ x ∈ post, qualityDiff enc target q ≤ qualityDiff enc target x) :=
  find_quality_spec enc target minq maxq q b h

/-- C8 witness: with the constant 5-byte encoder and target 2, every visited
quality ties at distance 3 and the first-visited quality 52 is kept. -/
theorem C8_witness :
    find_quality_for_target_size constEnc5 2 10 95 =
      (some 52, some (List.replicate 5 0)) ∧
    (∃ pre post, visitedQualities constEnc5 2 10 95 = pre ++ 52 :: post ∧
      List.replicate 5 0 = constEnc5 52 ∧
      (∀ x ∈ pre, qualityDiff constEnc5 2 52 < qualityDiff constEnc5 2 x) ∧
      (∀ x ∈ post, qualityDiff constEnc5 2 52 ≤ qualityDiff constEnc5 2 x)) := by
  have h : find_quality_for_target_size constEnc5 2 10 95 =
      (some 52, some (List.replicate 5 0)) := by decide
  exact ⟨h, C8_first_minimal_kept constEnc5 2 10 95 52 (List.replicate 5 0) h⟩

/-- C10: a returned buffer is exactly the encoding of the input at the
returned quality (hence its byte length is the encoded size judged minimal
over the visit trace), and the search returns the all-`None` pair exactly
when `min_quality > max_quality`. -/
theorem C10_buffer_and_none (enc : ℕ → List ℕ) (target minq maxq : ℕ) :
    (∀ q b, find_quality_for_target_size enc target minq maxq = (some q, some b) →
      b = enc q ∧ b.length = (enc q).length ∧
      ∀ x ∈ visitedQualities enc target minq maxq,
        qualityDiff enc target q ≤ qualityDiff enc target x) ∧
    (find_quality_for_target_size enc target minq maxq = (none, none) ↔
      maxq < minq) := by
  constructor
  · intro q b h
    obtain ⟨pre, post, hV, hb, hpre, hpost⟩ :=
      find_quality_spec enc target minq maxq q b h
    exact ⟨hb, by rw [hb], find_quality_min enc target minq maxq q b h⟩
  · exact find_quality_eq_none_iff enc target minq maxq

/-- C10 witness: at the constant encoder the returned buffer is the actual
encode at quality 52, and an inverted range `[50, 40]` yields the all-`None`
pair. -/
theorem C10_witness :
    (List.replicate 5 0 = constEnc5 52 ∧
      (List.replicate 5 0).length = (constEnc5 52).length ∧
      ∀ x ∈ visitedQualities constEnc5 2 10 95,
        qualityDiff constEnc5 2 52 ≤ qualityDiff constEnc5 2 x) ∧
    find_quality_for_target_size constEnc5 2 50 40 = (none, none) := by
  refine ⟨(C10_buffer_and_none constEnc5 2 10 95).1 52 (List.replicate 5 0)
    (by decide), ?_⟩
  exact (C10_buffer_and_none constEnc5 2 50 40).2.mpr (by norm_num)

/-- C5, counterexample: the constant 5-byte encoder is monotonically
non-decreasing and every quality in `[10, 95]` encodes strictly above the
target 2, yet the search returns quality 52 — the first visited quality,
kept through all equal-distance ties — and not quality 10 as the claim
states. -/
theorem C5_counterexample :
    Monotone (fun q => (constEnc5 q).length) ∧
    (∀ q : ℕ, 10 ≤ q → q ≤ 95 → 2 < (constEnc5 q).length) ∧
    (find_quality_for_target_size constEnc5 2 10 95).1 = some 52 ∧
    (52 : ℕ) ≠ 10 := by
  refine ⟨monotone_const, ?_, by decide, by norm_num⟩
  intro q _ _
  norm_num [constEnc5]

/-- C5 (amended): when the per-quality encoded size is strictly increasing
in quality (rather than merely non-decreasing) and the encoded size at every
quality in `[10, 95]` strictly exceeds the target, the search returns
quality 10, the smallest encode visited, not the `None` outcome.  (With ties
permitted the first-visited minimal-distance quality is returned instead;
see the counterexample.) -/
theorem C5_smallest_when_all_above_amended (enc : ℕ → List ℕ) (target : ℕ)
    (hmono : StrictMono fun q => (enc q).length)
    (hbig : ∀ q : ℕ, 10 ≤ q → q ≤ 95 → target < (enc q).length) :
    (find_quality_for_target_size enc target 10 95).1 = some 10 := by
  obtain ⟨q, b, hqb⟩ := find_quality_isSome enc target 10 95 (by norm_num)
  obtain ⟨hq1, hq2⟩ := find_quality_in_range enc target 10 95 q b hqb
  have hmin := find_quality_min enc target 10 95 q b hqb
  have h10 := visited_low_mem enc target 10 95 (by norm_num) hbig
  have hq10 : q = 10 := by
    rcases Nat.eq_or_lt_of_le hq1 with heq | hlt
    · exact heq.symm
    · exfalso
      have hs : (enc 10).length < (enc q).length := hmono hlt
      have hd := hmin 10 h10
      have hb10 : target < (enc 10).length := hbig 10 (by norm_num) (by norm_num)
      have hbq : target < (enc q).length := hbig q hq1 hq2
      unfold qualityDiff at hd
      omega
  rw [hqb, hq10]

/-- C5 witness: a strictly growing encoder (`q + 100` bytes at quality `q`)
with target 3 returns quality 10. -/
theorem C5_witness :
    StrictMono (fun q => (offsetEnc q).length) ∧
    (∀ q : ℕ, 10 ≤ q → q ≤ 95 → 3 < (offsetEnc q).length) ∧
    (find_quality_for_target_size offsetEnc 3 10 95).1 = some 10 := by
  have h1 : StrictMono (fun q => (offsetEnc q).length) := by
    intro a b hab
    simpa [offsetEnc] using hab
  have h2 : ∀ q : ℕ, 10 ≤ q → q ≤ 95 → 3 < (offsetEnc q).length := by
    intro q _ _
    simp [offsetEnc]
  exact ⟨h1, h2, C5_smallest_when_all_above_amended offsetEnc 3 h1 h2⟩
